import Mathlib

/-!
Shallow embedding of `pffuchs.py`: balance aggregation (`calculate_balances`)
and greedy debt settlement (`resolve_transfers`), together with the
`PrioFuncHeap` priority container the settlement loop uses.

Modelling choices, fixed once here:

* Currency values (`decimal.Decimal` with two fractional digits after each
  `quantize(Decimal("0.01"))`) are integer cents, plain `Int`.  Every
  balance the source stores has been quantized to two fractional digits, so
  this is exact.  The one transient non-integral quantity, the per-person
  share `amount / len(all_people)`, is kept as the exact fraction
  `amount / n` and rounded with explicit half-even integer rounding
  (`roundHalfEvenDiv`); Python's `Decimal` division carries 28 significant
  digits, which agrees with the exact fraction at every half-even rounding
  decision for any realistic magnitude.
* `Person` is `String`; Python compares strings lexicographically by code
  point, which `charListLtb` reimplements executably (the library order on
  `String` does not reduce inside `decide`).
* A Python `dict` is an association list with unique keys in insertion
  order; `dict.get`, item assignment and `.items()` become `dictGet`,
  `dictSet` and the list itself.
* `heapq` is used by the source through `heapify`, `heappush` and `heappop`
  only.  Its documented behaviour (the docstring of `PrioFuncHeap` cites the
  `heapq` documentation) is that `heappop` removes and returns the smallest
  list element; arrangement inside the backing list is unobservable through
  that interface.  The embedding therefore keeps `PrioFuncHeap.data` as the
  list of `(priority, item)` pairs and lets `heapPop` remove the least pair
  under Python's tuple order (`entryLeb`).
* Exceptions become `Except`/`Option` results (`heapPopE` and friends).
-/

abbrev Person := String

/-- A record held in a settlement heap: the `(balance, person)` pairs built
at lines 79-90 of the source (`credit_recs` / `debt_recs`). -/
abbrev BalRec := Int × Person

/-- One element of `PrioFuncHeap.data`: the `(self.prio_func(item), item)`
pair built in `PrioFuncHeap.__init__` and `PrioFuncHeap.push`. -/
abbrev HeapEntry := Int × BalRec

abbrev Heap := List HeapEntry

/-- Python string comparison `s1 < s2`: lexicographic on code points. -/
def charListLtb : List Char → List Char → Bool
  | [], [] => false
  | [], _ :: _ => true
  | _ :: _, [] => false
  | c :: cs, d :: ds => if c < d then true else if d < c then false else charListLtb cs ds

def personLtb (p q : Person) : Bool := charListLtb p.data q.data

/-- Python tuple comparison of two heap entries, `e₁ <= e₂`: first the
priority, then (on a priority tie) the `(amount, person)` item, itself
compared amount first, person second. -/
def entryLeb (e₁ e₂ : HeapEntry) : Bool :=
  if e₁.1 < e₂.1 then true
  else if e₂.1 < e₁.1 then false
  else if e₁.2.1 < e₂.2.1 then true
  else if e₂.2.1 < e₁.2.1 then false
  else !(personLtb e₂.2.2 e₁.2.2)

theorem charListLtb_asymm : ∀ {xs ys : List Char},
    charListLtb xs ys = true → charListLtb ys xs = false := by
  intro xs
  induction xs with
  | nil => intro ys h; cases ys <;> simp [charListLtb] at *
  | cons c cs ih =>
      intro ys h
      cases ys with
      | nil => simp [charListLtb] at h
      | cons d ds =>
          simp only [charListLtb] at h ⊢
          by_cases hcd : c < d
          · simp [hcd, asymm hcd, (ne_of_lt hcd).symm]
          · by_cases hdc : d < c
            · simp [hcd, hdc] at h
            · simp [hcd, hdc] at h ⊢
              exact ih h

theorem charListLtb_trans : ∀ {xs ys zs : List Char},
    charListLtb xs ys = true → charListLtb ys zs = true → charListLtb xs zs = true := by
  intro xs
  induction xs with
  | nil =>
      intro ys zs h₁ h₂
      cases ys with
      | nil => exact h₂
      | cons d ds =>
          cases zs with
          | nil => simp [charListLtb] at h₂
          | cons e es => simp [charListLtb]
  | cons c cs ih =>
      intro ys zs h₁ h₂
      cases ys with
      | nil => simp [charListLtb] at h₁
      | cons d ds =>
          cases zs with
          | nil => simp [charListLtb] at h₂
          | cons e es =>
              simp only [charListLtb] at h₁ h₂ ⊢
              by_cases hcd : c < d
              · by_cases hde : d < e
                · have hce : c < e := lt_trans hcd hde
                  simp [hce]
                · by_cases hed : e < d
                  · simp [hcd, hde, hed] at h₂
                  · have hde' : d = e := le_antisymm (not_lt.mp hed) (not_lt.mp hde)
                    subst hde'
                    simp [hcd]
              · by_cases hdc : d < c
                · simp [hcd, hdc] at h₁
                · have hcd' : c = d := le_antisymm (not_lt.mp hdc) (not_lt.mp hcd)
                  subst hcd'
                  by_cases hde : c < e
                  · simp [hde]
                  · by_cases hed : e < c
                    · simp [hde, hed] at h₂
                    · simp [hcd, hde, hed] at h₁ h₂ ⊢
                      exact ih h₁ h₂

theorem charListLtb_conn : ∀ {xs ys : List Char},
    charListLtb xs ys = false → charListLtb ys xs = false → xs = ys := by
  intro xs
  induction xs with
  | nil =>
      intro ys h₁ _
      cases ys with
      | nil => rfl
      | cons d ds => simp [charListLtb] at h₁
  | cons c cs ih =>
      intro ys h₁ h₂
      cases ys with
      | nil => simp [charListLtb] at h₂
      | cons d ds =>
          simp only [charListLtb] at h₁ h₂
          by_cases hcd : c < d
          · simp [hcd] at h₁
          · by_cases hdc : d < c
            · simp [hcd, hdc] at h₂
            · have hcd' : c = d := le_antisymm (not_lt.mp hdc) (not_lt.mp hcd)
              subst hcd'
              simp [hcd] at h₁ h₂
              rw [ih h₁ h₂]

theorem personLtb_asymm {p q : Person} (h : personLtb p q = true) :
    personLtb q p = false := charListLtb_asymm h

theorem personLtb_trans {p q r : Person} (h₁ : personLtb p q = true)
    (h₂ : personLtb q r = true) : personLtb p r = true := charListLtb_trans h₁ h₂

theorem personLtb_conn {p q : Person} (h₁ : personLtb p q = false)
    (h₂ : personLtb q p = false) : p = q := by
  have h := charListLtb_conn h₁ h₂
  cases p
  cases q
  exact congrArg String.mk h

theorem personLtb_neg_trans {p q r : Person} (h₁ : personLtb p q = false)
    (h₂ : personLtb q r = false) : personLtb p r = false := by
  rcases h : personLtb p r with _ | _
  · rfl
  · exfalso
    rcases h' : personLtb r q with _ | _
    · have hqr : q = r := personLtb_conn h₂ h'
      rw [← hqr] at h
      rw [h] at h₁
      exact Bool.noConfusion h₁
    · have ht := personLtb_trans h h'
      rw [ht] at h₁
      exact Bool.noConfusion h₁

theorem entryLeb_iff (e₁ e₂ : HeapEntry) :
    entryLeb e₁ e₂ = true ↔
      e₁.1 < e₂.1 ∨ e₁.1 = e₂.1 ∧
        (e₁.2.1 < e₂.2.1 ∨ e₁.2.1 = e₂.2.1 ∧ personLtb e₂.2.2 e₁.2.2 = false) := by
  unfold entryLeb
  split_ifs with h₁ h₂ h₃ h₄
  · simp [h₁]
  · refine iff_of_false (by simp) ?_
    rintro (h | ⟨he, _⟩)
    · exact h₁ h
    · exact absurd h₂ (by omega)
  · have he : e₁.1 = e₂.1 := by omega
    simp [he, h₃]
  · refine iff_of_false (by simp) ?_
    rintro (h | ⟨he, h | ⟨ha, _⟩⟩)
    · exact h₁ h
    · exact h₃ h
    · exact absurd h₄ (by omega)
  · have he : e₁.1 = e₂.1 := by omega
    have ha : e₁.2.1 = e₂.2.1 := by omega
    simp [he, ha, Bool.not_eq_true']

theorem entryLeb_total (e₁ e₂ : HeapEntry) :
    entryLeb e₁ e₂ = true ∨ entryLeb e₂ e₁ = true := by
  rw [entryLeb_iff, entryLeb_iff]
  rcases lt_trichotomy e₁.1 e₂.1 with h | h | h
  · exact Or.inl (Or.inl h)
  · rcases lt_trichotomy e₁.2.1 e₂.2.1 with h' | h' | h'
    · exact Or.inl (Or.inr ⟨h, Or.inl h'⟩)
    · rcases hb : personLtb e₂.2.2 e₁.2.2 with _ | _
      · exact Or.inl (Or.inr ⟨h, Or.inr ⟨h', rfl⟩⟩)
      · exact Or.inr (Or.inr ⟨h.symm, Or.inr ⟨h'.symm, personLtb_asymm hb⟩⟩)
    · exact Or.inr (Or.inr ⟨h.symm, Or.inl h'⟩)
  · exact Or.inr (Or.inl h)

theorem entryLeb_trans {e₁ e₂ e₃ : HeapEntry} (h₁ : entryLeb e₁ e₂ = true)
    (h₂ : entryLeb e₂ e₃ = true) : entryLeb e₁ e₃ = true := by
  rw [entryLeb_iff] at h₁ h₂ ⊢
  rcases h₁ with h₁ | ⟨hp₁, h₁⟩
  · rcases h₂ with h₂ | ⟨hp₂, _⟩
    · exact Or.inl (lt_trans h₁ h₂)
    · exact Or.inl (by omega)
  · rcases h₂ with h₂ | ⟨hp₂, h₂⟩
    · exact Or.inl (by omega)
    · refine Or.inr ⟨by omega, ?_⟩
      rcases h₁ with h₁ | ⟨ha₁, h₁⟩
      · rcases h₂ with h₂ | ⟨ha₂, _⟩
        · exact Or.inl (lt_trans h₁ h₂)
        · exact Or.inl (by omega)
      · rcases h₂ with h₂ | ⟨ha₂, h₂⟩
        · exact Or.inl (by omega)
        · exact Or.inr ⟨by omega, personLtb_neg_trans h₂ h₁⟩

theorem entryLeb_refl (e : HeapEntry) : entryLeb e e = true := by
  rcases entryLeb_total e e with h | h <;> exact h

/-- Sum of the item amounts held in a heap (first components of the stored
`(amount, person)` items). -/
def heapSum (h : Heap) : Int := (h.map fun e => e.2.1).sum

/-- Sum of the amounts of a list of `(amount, person)` records. -/
def recsSum (l : List BalRec) : Int := (l.map Prod.fst).sum

/-- Python's `heapq.heappop` applied to `PrioFuncHeap.data` returns the
smallest stored `(priority, item)` pair; `findMin` selects it.  On priority
ties the comparison falls through to the item, per `entryLeb`. -/
def findMin (h : Heap) : Option HeapEntry :=
  match h with
  | [] => none
  | e :: es => some (es.foldl (fun m x => if entryLeb m x then m else x) e)

/-- Removal of the first occurrence of the popped pair from the backing
list. -/
def removeEntry (e : HeapEntry) : Heap → Heap
  | [] => []
  | x :: xs => if x = e then xs else x :: removeEntry e xs

/-- The body of `PrioFuncHeap.pop`: `heapq.heappop(self.data)` destructured
as `prio, item`, returning `item`; `none` when the backing list is empty
(the source raises there, see `heapPopE`). -/
def heapPop (h : Heap) : Option (BalRec × Heap) :=
  match findMin h with
  | none => none
  | some e => some (e.2, removeEntry e h)

/-- The body of `PrioFuncHeap.push`: `heappush(self.data, (self.prio_func(item), item))`. -/
def heapPush (pf : BalRec → Int) (r : BalRec) (h : Heap) : Heap := (pf r, r) :: h

/-- The body of `PrioFuncHeap.__init__`: `[(self.prio_func(item), item) for item in data]`
followed by `heapify`; arrangement is unobservable through `heapPop`. -/
def heapify (pf : BalRec → Int) (rs : List BalRec) : Heap := rs.map fun r => (pf r, r)

/-- The priority function both settlement heaps use: `lambda rec: -1 * rec[0]`,
so that the highest balance has the lowest priority. -/
def negAmount (r : BalRec) : Int := -1 * r.1

/-- The guarded push-back at lines 104-111 of the source: re-push a record
only when its remaining amount is strictly positive. -/
def maybePush (r : BalRec) (h : Heap) : Heap := if 0 < r.1 then heapPush negAmount r h else h

theorem foldlMin_mem (es : List HeapEntry) : ∀ acc : HeapEntry,
    es.foldl (fun m x => if entryLeb m x then m else x) acc = acc ∨
      es.foldl (fun m x => if entryLeb m x then m else x) acc ∈ es := by
  induction es with
  | nil => intro acc; exact Or.inl rfl
  | cons x xs ih =>
      intro acc
      simp only [List.foldl_cons]
      rcases ih (if entryLeb acc x then acc else x) with h | h
      · rw [h]
        split_ifs with hx
        · exact Or.inl rfl
        · exact Or.inr (List.mem_cons_self _ _)
      · exact Or.inr (List.mem_cons_of_mem _ h)

theorem foldlMin_le (es : List HeapEntry) : ∀ acc : HeapEntry,
    entryLeb (es.foldl (fun m x => if entryLeb m x then m else x) acc) acc = true ∧
      ∀ x ∈ es, entryLeb (es.foldl (fun m x => if entryLeb m x then m else x) acc) x = true := by
  induction es with
  | nil =>
      intro acc
      exact ⟨entryLeb_refl acc, by intro x hx; cases hx⟩
  | cons x xs ih =>
      intro acc
      simp only [List.foldl_cons]
      by_cases hx : entryLeb acc x = true
      · rw [if_pos hx]
        obtain ⟨hacc, hall⟩ := ih acc
        refine ⟨hacc, ?_⟩
        intro y hy
        rcases List.mem_cons.mp hy with rfl | hy
        · exact entryLeb_trans hacc hx
        · exact hall y hy
      · rw [if_neg hx]
        obtain ⟨hacc, hall⟩ := ih x
        have hxa : entryLeb x acc = true := by
          rcases entryLeb_total acc x with h | h
          · exact absurd h hx
          · exact h
        refine ⟨entryLeb_trans hacc hxa, ?_⟩
        intro y hy
        rcases List.mem_cons.mp hy with rfl | hy
        · exact hacc
        · exact hall y hy

theorem findMin_mem {h : Heap} {e : HeapEntry} (hm : findMin h = some e) : e ∈ h := by
  cases h with
  | nil => cases hm
  | cons x xs =>
      simp only [findMin, Option.some.injEq] at hm
      rcases foldlMin_mem xs x with h' | h'
      · rw [hm] at h'
        rw [h']
        exact List.mem_cons_self _ _
      · rw [hm] at h'
        exact List.mem_cons_of_mem _ h'

theorem findMin_le {h : Heap} {e : HeapEntry} (hm : findMin h = some e) :
    ∀ x ∈ h, entryLeb e x = true := by
  cases h with
  | nil => cases hm
  | cons y ys =>
      simp only [findMin, Option.some.injEq] at hm
      obtain ⟨hacc, hall⟩ := foldlMin_le ys y
      intro x hx
      rcases List.mem_cons.mp hx with rfl | hx
      · rw [hm] at hacc; exact hacc
      · rw [hm] at hall; exact hall x hx

theorem findMin_none {h : Heap} : findMin h = none ↔ h = [] := by
  cases h <;> simp [findMin]

theorem removeEntry_length {e : HeapEntry} : ∀ {l : Heap}, e ∈ l →
    (removeEntry e l).length + 1 = l.length := by
  intro l
  induction l with
  | nil => intro h; cases h
  | cons x xs ih =>
      intro h
      by_cases hx : x = e
      · simp [removeEntry, hx]
      · rcases List.mem_cons.mp h with rfl | h'
        · exact absurd rfl hx
        · simp only [removeEntry, if_neg hx, List.length_cons]
          rw [← ih h']

theorem removeEntry_subset {e x : HeapEntry} : ∀ {l : Heap},
    x ∈ removeEntry e l → x ∈ l := by
  intro l
  induction l with
  | nil => intro h; cases h
  | cons y ys ih =>
      intro h
      by_cases hy : y = e
      · rw [removeEntry, if_pos hy] at h
        exact List.mem_cons_of_mem _ h
      · rw [removeEntry, if_neg hy] at h
        rcases List.mem_cons.mp h with rfl | h'
        · exact List.mem_cons_self _ _
        · exact List.mem_cons_of_mem _ (ih h')

theorem removeEntry_heapSum {e : HeapEntry} : ∀ {l : Heap}, e ∈ l →
    heapSum (removeEntry e l) + e.2.1 = heapSum l := by
  intro l
  induction l with
  | nil => intro h; cases h
  | cons x xs ih =>
      intro h
      by_cases hx : x = e
      · subst hx
        simp [removeEntry, heapSum]
        ring
      · rcases List.mem_cons.mp h with rfl | h'
        · exact absurd rfl hx
        · simp only [removeEntry, if_neg hx, heapSum, List.map_cons, List.sum_cons]
          have := ih h'
          simp only [heapSum] at this
          omega

theorem heapPop_none {h : Heap} : heapPop h = none ↔ h = [] := by
  unfold heapPop
  cases hm : findMin h with
  | none => simpa using findMin_none.mp hm
  | some e =>
      simp only []
      constructor
      · intro hc; cases hc
      · intro hc
        subst hc
        cases hm

theorem heapPop_spec {h : Heap} {r : BalRec} {h' : Heap}
    (hp : heapPop h = some (r, h')) :
    ∃ e : HeapEntry, findMin h = some e ∧ e ∈ h ∧ e.2 = r ∧ h' = removeEntry e h := by
  unfold heapPop at hp
  cases hm : findMin h with
  | none => rw [hm] at hp; cases hp
  | some e =>
      rw [hm] at hp
      simp only [Option.some.injEq, Prod.mk.injEq] at hp
      exact ⟨e, rfl, findMin_mem hm, hp.1, hp.2.symm⟩

theorem heapPop_length {h : Heap} {r : BalRec} {h' : Heap}
    (hp : heapPop h = some (r, h')) : h'.length + 1 = h.length := by
  obtain ⟨e, _, he, _, hrm⟩ := heapPop_spec hp
  rw [hrm]
  exact removeEntry_length he

theorem heapPop_sum {h : Heap} {r : BalRec} {h' : Heap}
    (hp : heapPop h = some (r, h')) : heapSum h' + r.1 = heapSum h := by
  obtain ⟨e, _, he, hr, hrm⟩ := heapPop_spec hp
  rw [hrm, ← hr]
  exact removeEntry_heapSum he

theorem heapPop_item_mem {h : Heap} {r : BalRec} {h' : Heap}
    (hp : heapPop h = some (r, h')) : ∃ p : Int, (p, r) ∈ h := by
  obtain ⟨e, _, he, hr, _⟩ := heapPop_spec hp
  exact ⟨e.1, by rwa [← Prod.mk.eta (p := e), hr] at he⟩

theorem heapPop_subset {h : Heap} {r : BalRec} {h' : Heap}
    (hp : heapPop h = some (r, h')) : ∀ x ∈ h', x ∈ h := by
  obtain ⟨e, _, _, _, hrm⟩ := heapPop_spec hp
  intro x hx
  rw [hrm] at hx
  exact removeEntry_subset hx

theorem maybePush_length (r : BalRec) (h : Heap) :
    (maybePush r h).length ≤ h.length + 1 := by
  unfold maybePush heapPush
  split_ifs <;> simp

theorem settle_push_length (dAmt cAmt : Int) (cr db : Person) (c' d' : Heap) :
    (maybePush (cAmt - min dAmt cAmt, cr) c').length +
      (maybePush (dAmt - min dAmt cAmt, db) d').length ≤ c'.length + d'.length + 1 := by
  rcases le_total dAmt cAmt with hm | hm
  · have h0 : dAmt - min dAmt cAmt = 0 := by rw [min_eq_left hm]; ring
    have : (maybePush (dAmt - min dAmt cAmt, db) d').length = d'.length := by
      unfold maybePush
      rw [if_neg (by rw [h0]; exact lt_irrefl 0)]
    rw [this]
    have := maybePush_length (cAmt - min dAmt cAmt, cr) c'
    omega
  · have h0 : cAmt - min dAmt cAmt = 0 := by rw [min_eq_right hm]; ring
    have : (maybePush (cAmt - min dAmt cAmt, cr) c').length = c'.length := by
      unfold maybePush
      rw [if_neg (by rw [h0]; exact lt_irrefl 0)]
    rw [this]
    have := maybePush_length (dAmt - min dAmt cAmt, db) d'
    omega

/-- A settling payment as appended at lines 99-101 of the source:
a dict with keys sender, receiver, amount. -/
structure Transaction where
  sender : Person
  receiver : Person
  amount : Int
deriving DecidableEq, Repr

def transSum (ts : List Transaction) : Int := (ts.map Transaction.amount).sum

/-- The while-loop of `resolve_transfers` (lines 93-111): while both heaps
are non-empty, pop the largest debtor and creditor, emit a transaction for
the smaller of the two amounts, and push back whichever side keeps a
positive remainder.  The unreachable `Option.none` arms mirror the fact
that `heappop` is only called under the length guard; `resolveLoopE` below
shows they are never taken. -/
def resolveLoop (credit debt : Heap) (ts : List Transaction) :
    List Transaction × Heap × Heap :=
  if 0 < credit.length ∧ 0 < debt.length then
    match hd : heapPop debt, hc : heapPop credit with
    | some ((dAmt, debtor), debt'), some ((cAmt, creditor), credit') =>
        resolveLoop
          (maybePush (cAmt - min dAmt cAmt, creditor) credit')
          (maybePush (dAmt - min dAmt cAmt, debtor) debt')
          (ts ++ [⟨debtor, creditor, min dAmt cAmt⟩])
    | _, _ => (ts, credit, debt)
  else (ts, credit, debt)
termination_by credit.length + debt.length
decreasing_by
  have h1 := heapPop_length hd
  have h2 := heapPop_length hc
  have h3 := settle_push_length dAmt cAmt creditor debtor credit' debt'
  omega

/-- The draining iteration `PrioFuncHeap.__iter__`: pop while the backing
list is non-empty, yielding items in priority order (used by
`list(debt_heap)` / `list(credit_heap)` at lines 113-114). -/
def drain (h : Heap) : List BalRec :=
  if 0 < h.length then
    match hp : heapPop h with
    | none => []
    | some (r, h') => r :: drain h'
  else []
termination_by h.length
decreasing_by
  have := heapPop_length hp
  omega

/-- Lines 79-81 of the source: `(balance, person)` for each entry with a
positive balance, in dict (insertion) order. -/
def credit_recs (balances : List (Person × Int)) : List BalRec :=
  balances.filterMap fun pb => if 0 < pb.2 then some (pb.2, pb.1) else none

/-- Lines 86-88 of the source: `(-1 * balance, person)` for each entry with
a negative balance, so debts are tracked as positive magnitudes. -/
def debt_recs (balances : List (Person × Int)) : List BalRec :=
  balances.filterMap fun pb => if pb.2 < 0 then some (-1 * pb.2, pb.1) else none

/-- The function `resolve_transfers(balances)` of the source: build the two
priority heaps, run the greedy loop, then return the transactions together
with the leftover debt records and leftover credit records (in that order,
line 115). -/
def resolve_transfers (balances : List (Person × Int)) :
    List Transaction × List BalRec × List BalRec :=
  let credit_heap := heapify negAmount (credit_recs balances)
  let debt_heap := heapify negAmount (debt_recs balances)
  let res := resolveLoop credit_heap debt_heap []
  (res.1, drain res.2.2, drain res.2.1)

/-- Sum of the strictly positive starting balances. -/
def posSum (balances : List (Person × Int)) : Int :=
  (balances.map fun pb => if 0 < pb.2 then pb.2 else 0).sum

/-- Sum of the strictly negative starting balances (a non-positive value). -/
def negSum (balances : List (Person × Int)) : Int :=
  (balances.map fun pb => if pb.2 < 0 then pb.2 else 0).sum

/-- Number of entries with a nonzero starting balance. -/
def nonzeroCount (balances : List (Person × Int)) : Nat :=
  (balances.filter fun pb => decide (pb.2 ≠ 0)).length

/-- Fuel-indexed restatement of `resolveLoop`, used only to evaluate the
well-founded recursion on concrete inputs (via `resolveLoopFuel_eq`). -/
def resolveLoopFuel : Nat → Heap → Heap → List Transaction →
    List Transaction × Heap × Heap
  | 0, credit, debt, ts => (ts, credit, debt)
  | fuel + 1, credit, debt, ts =>
      if 0 < credit.length ∧ 0 < debt.length then
        match heapPop debt, heapPop credit with
        | some ((dAmt, debtor), debt'), some ((cAmt, creditor), credit') =>
            resolveLoopFuel fuel
              (maybePush (cAmt - min dAmt cAmt, creditor) credit')
              (maybePush (dAmt - min dAmt cAmt, debtor) debt')
              (ts ++ [⟨debtor, creditor, min dAmt cAmt⟩])
        | _, _ => (ts, credit, debt)
      else (ts, credit, debt)

/-- Fuel-indexed restatement of `drain` for concrete evaluation. -/
def drainFuel : Nat → Heap → List BalRec
  | 0, _ => []
  | fuel + 1, h =>
      if 0 < h.length then
        match heapPop h with
        | none => []
        | some (r, h') => r :: drainFuel fuel h'
      else []

theorem resolveLoopFuel_eq : ∀ (fuel : Nat) (credit debt : Heap)
    (ts : List Transaction), credit.length + debt.length ≤ fuel →
    resolveLoopFuel fuel credit debt ts = resolveLoop credit debt ts := by
  intro fuel
  induction fuel with
  | zero =>
      intro credit debt ts hf
      unfold resolveLoop resolveLoopFuel
      rw [if_neg (by omega)]
  | succ fuel ih =>
      intro credit debt ts hf
      unfold resolveLoop resolveLoopFuel
      by_cases hg : 0 < credit.length ∧ 0 < debt.length
      · rw [if_pos hg, if_pos hg]
        cases hd : heapPop debt with
        | none => simp only [hd]
        | some pd =>
            obtain ⟨⟨dAmt, debtor⟩, debt'⟩ := pd
            cases hc : heapPop credit with
            | none => simp only [hd, hc]
            | some pc =>
                obtain ⟨⟨cAmt, creditor⟩, credit'⟩ := pc
                simp only [hd, hc]
                apply ih
                have h1 := heapPop_length hd
                have h2 := heapPop_length hc
                have h3 := settle_push_length dAmt cAmt creditor debtor credit' debt'
                omega
      · rw [if_neg hg, if_neg hg]

theorem drainFuel_eq : ∀ (fuel : Nat) (h : Heap), h.length ≤ fuel →
    drainFuel fuel h = drain h := by
  intro fuel
  induction fuel with
  | zero =>
      intro h hf
      unfold drain drainFuel
      rw [if_neg (by omega)]
  | succ fuel ih =>
      intro h hf
      unfold drain drainFuel
      by_cases hg : 0 < h.length
      · rw [if_pos hg, if_pos hg]
        cases hp : heapPop h with
        | none => simp only [hp]
        | some p =>
            obtain ⟨r, h'⟩ := p
            simp only [hp, List.cons.injEq, true_and]
            apply ih
            have := heapPop_length hp
            omega
      · rw [if_neg hg, if_neg hg]

/-- Fuel-indexed restatement of `resolve_transfers` for concrete evaluation. -/
def resolveTransfersFuel (balances : List (Person × Int)) :
    List Transaction × List BalRec × List BalRec :=
  let credit_heap := heapify negAmount (credit_recs balances)
  let debt_heap := heapify negAmount (debt_recs balances)
  let fuel := credit_heap.length + debt_heap.length
  let res := resolveLoopFuel fuel credit_heap debt_heap []
  (res.1, drainFuel res.2.2.length res.2.2, drainFuel res.2.1.length res.2.1)

theorem resolve_transfers_eval (balances : List (Person × Int)) :
    resolve_transfers balances = resolveTransfersFuel balances := by
  unfold resolve_transfers resolveTransfersFuel
  simp only
  rw [resolveLoopFuel_eq _ _ _ _ (le_refl _), drainFuel_eq _ _ (le_refl _),
    drainFuel_eq _ _ (le_refl _)]

example : resolve_transfers [("A", 200), ("B", -100)] =
    ([⟨"B", "A", 100⟩], [], [(100, "A")]) := by
  rw [resolve_transfers_eval]; decide

example : resolve_transfers [("A", -100)] = ([], [(100, "A")], []) := by
  rw [resolve_transfers_eval]; decide

example : resolve_transfers [] = ([], [], []) := by
  rw [resolve_transfers_eval]; decide

example : resolve_transfers [("A", 20), ("B", -10), ("C", -10)] =
    ([⟨"B", "A", 10⟩, ⟨"C", "A", 10⟩], [], []) := by
  rw [resolve_transfers_eval]; decide

/-- Invariant tying a settlement heap to the starting balances: every stored
item has a strictly positive amount and belongs to a person whose starting
balance satisfies `pred` (`0 < b` for the credit heap, `b < 0` for the debt
heap). -/
def HeapInv (pred : Int → Prop) (bal : List (Person × Int)) (h : Heap) : Prop :=
  ∀ e ∈ h, 0 < e.2.1 ∧ ∃ b : Int, (e.2.2, b) ∈ bal ∧ pred b

/-- Invariant on emitted transactions: positive amount, sender started
strictly negative, receiver started strictly positive. -/
def TransInv (bal : List (Person × Int)) (ts : List Transaction) : Prop :=
  ∀ t ∈ ts, 0 < t.amount ∧ (∃ b : Int, (t.sender, b) ∈ bal ∧ b < 0) ∧
    ∃ b : Int, (t.receiver, b) ∈ bal ∧ 0 < b

theorem resolveLoop_of_stop (credit debt : Heap) (ts : List Transaction)
    (h : ¬(0 < credit.length ∧ 0 < debt.length)) :
    resolveLoop credit debt ts = (ts, credit, debt) := by
  unfold resolveLoop
  rw [if_neg h]

theorem transSum_append (ts : List Transaction) (t : Transaction) :
    transSum (ts ++ [t]) = transSum ts + t.amount := by
  unfold transSum
  rw [List.map_append, List.sum_append]
  simp

theorem heapSum_maybePush (r : BalRec) (h : Heap) :
    heapSum (maybePush r h) = heapSum h + (if 0 < r.1 then r.1 else 0) := by
  unfold maybePush heapPush
  split_ifs with hr
  · simp [heapSum]
    omega
  · simp

theorem maybePush_sum_pos {x : Int} (h : Heap) (p : Person) (hx : 0 ≤ x) :
    heapSum (maybePush (x, p) h) = heapSum h + x := by
  rw [heapSum_maybePush]
  rcases lt_or_eq_of_le hx with h' | h'
  · rw [if_pos h']
  · rw [← h', if_neg (lt_irrefl 0)]

theorem HeapInv_maybePush {pred : Int → Prop} {bal : List (Person × Int)}
    {h : Heap} {r : BalRec} (hh : HeapInv pred bal h)
    (hr : 0 < r.1 → ∃ b : Int, (r.2, b) ∈ bal ∧ pred b) :
    HeapInv pred bal (maybePush r h) := by
  unfold maybePush heapPush
  split_ifs with hpos
  · intro e he
    rcases List.mem_cons.mp he with rfl | he
    · exact ⟨hpos, hr hpos⟩
    · exact hh e he
  · exact hh

theorem HeapInv_pop {pred : Int → Prop} {bal : List (Person × Int)}
    {h h' : Heap} {r : BalRec} (hh : HeapInv pred bal h)
    (hp : heapPop h = some (r, h')) :
    (0 < r.1 ∧ ∃ b : Int, (r.2, b) ∈ bal ∧ pred b) ∧ HeapInv pred bal h' := by
  obtain ⟨q, hq⟩ := heapPop_item_mem hp
  refine ⟨hh (q, r) hq, ?_⟩
  intro e he
  exact hh e (heapPop_subset hp e he)

theorem drainFuel_recsSum : ∀ (fuel : Nat) (h : Heap), h.length ≤ fuel →
    recsSum (drainFuel fuel h) = heapSum h := by
  intro fuel
  induction fuel with
  | zero =>
      intro h hf
      have hh : h = [] := List.eq_nil_of_length_eq_zero (by omega)
      subst hh
      rfl
  | succ fuel ih =>
      intro h hf
      unfold drainFuel
      by_cases hg : 0 < h.length
      · rw [if_pos hg]
        cases hp : heapPop h with
        | none =>
            have hh := heapPop_none.mp hp
            subst hh
            simp at hg
        | some p =>
            obtain ⟨r, h'⟩ := p
            have hs := heapPop_sum hp
            have hl := heapPop_length hp
            have hrec := ih h' (by omega)
            simp only [recsSum, List.map_cons, List.sum_cons] at *
            omega
      · rw [if_neg hg]
        have hh : h = [] := List.eq_nil_of_length_eq_zero (by omega)
        subst hh
        rfl

theorem drainFuel_mem : ∀ (fuel : Nat) (h : Heap) (r : BalRec), h.length ≤ fuel →
    r ∈ drainFuel fuel h → ∃ q : Int, (q, r) ∈ h := by
  intro fuel
  induction fuel with
  | zero =>
      intro h r hf hr
      cases hr
  | succ fuel ih =>
      intro h r hf hr
      unfold drainFuel at hr
      by_cases hg : 0 < h.length
      · rw [if_pos hg] at hr
        cases hp : heapPop h with
        | none =>
            rw [hp] at hr
            cases hr
        | some p =>
            obtain ⟨r', h'⟩ := p
            rw [hp] at hr
            rcases List.mem_cons.mp hr with rfl | hr'
            · exact heapPop_item_mem hp
            · have hl := heapPop_length hp
              obtain ⟨q, hq⟩ := ih h' r (by omega) hr'
              exact ⟨q, heapPop_subset hp _ hq⟩
      · rw [if_neg hg] at hr
        cases hr

theorem drainFuel_length : ∀ (fuel : Nat) (h : Heap), h.length ≤ fuel →
    (drainFuel fuel h).length = h.length := by
  intro fuel
  induction fuel with
  | zero =>
      intro h hf
      have hh : h = [] := List.eq_nil_of_length_eq_zero (by omega)
      subst hh
      rfl
  | succ fuel ih =>
      intro h hf
      unfold drainFuel
      by_cases hg : 0 < h.length
      · rw [if_pos hg]
        cases hp : heapPop h with
        | none =>
            have hh := heapPop_none.mp hp
            subst hh
            simp at hg
        | some p =>
            obtain ⟨r, h'⟩ := p
            have hl := heapPop_length hp
            have hrec := ih h' (by omega)
            simp only [List.length_cons]
            omega
      · rw [if_neg hg]
        have hh : h = [] := List.eq_nil_of_length_eq_zero (by omega)
        subst hh
        rfl

theorem drain_recsSum (h : Heap) : recsSum (drain h) = heapSum h := by
  rw [← drainFuel_eq h.length h (le_refl _)]
  exact drainFuel_recsSum h.length h (le_refl _)

theorem drain_mem {h : Heap} {r : BalRec} (hr : r ∈ drain h) :
    ∃ q : Int, (q, r) ∈ h := by
  rw [← drainFuel_eq h.length h (le_refl _)] at hr
  exact drainFuel_mem h.length h r (le_refl _) hr

theorem drain_length (h : Heap) : (drain h).length = h.length := by
  rw [← drainFuel_eq h.length h (le_refl _)]
  exact drainFuel_length h.length h (le_refl _)

theorem heapify_mem {pf : BalRec → Int} {rs : List BalRec} {e : HeapEntry} :
    e ∈ heapify pf rs ↔ ∃ r ∈ rs, e = (pf r, r) := by
  unfold heapify
  rw [List.mem_map]
  constructor
  · rintro ⟨r, hr, rfl⟩; exact ⟨r, hr, rfl⟩
  · rintro ⟨r, hr, rfl⟩; exact ⟨r, hr, rfl⟩

theorem heapify_sum (pf : BalRec → Int) (rs : List BalRec) :
    heapSum (heapify pf rs) = recsSum rs := by
  unfold heapify heapSum recsSum
  rw [List.map_map]
  rfl

theorem heapify_length (pf : BalRec → Int) (rs : List BalRec) :
    (heapify pf rs).length = rs.length := by
  unfold heapify
  rw [List.length_map]

theorem credit_recs_mem {bal : List (Person × Int)} {r : BalRec}
    (hr : r ∈ credit_recs bal) : 0 < r.1 ∧ (r.2, r.1) ∈ bal := by
  unfold credit_recs at hr
  rw [List.mem_filterMap] at hr
  obtain ⟨pb, hpb, hf⟩ := hr
  by_cases hb : 0 < pb.2
  · rw [if_pos hb] at hf
    cases hf
    exact ⟨hb, by simpa using hpb⟩
  · rw [if_neg hb] at hf
    cases hf

theorem debt_recs_mem {bal : List (Person × Int)} {r : BalRec}
    (hr : r ∈ debt_recs bal) : 0 < r.1 ∧ (r.2, -r.1) ∈ bal := by
  unfold debt_recs at hr
  rw [List.mem_filterMap] at hr
  obtain ⟨pb, hpb, hf⟩ := hr
  by_cases hb : pb.2 < 0
  · rw [if_pos hb] at hf
    cases hf
    constructor
    · omega
    · simpa [show -(-1 * pb.2) = pb.2 by ring] using hpb
  · rw [if_neg hb] at hf
    cases hf

theorem credit_recs_sum (bal : List (Person × Int)) :
    recsSum (credit_recs bal) = posSum bal := by
  induction bal with
  | nil => rfl
  | cons pb rest ih =>
      unfold credit_recs posSum at *
      rw [List.filterMap_cons, List.map_cons, List.sum_cons]
      by_cases hb : 0 < pb.2
      · rw [if_pos hb, if_pos hb]
        simp only [recsSum, List.map_cons, List.sum_cons] at *
        omega
      · rw [if_neg hb, if_neg hb]
        simp only [recsSum] at *
        omega

theorem debt_recs_sum (bal : List (Person × Int)) :
    recsSum (debt_recs bal) = -(negSum bal) := by
  induction bal with
  | nil => rfl
  | cons pb rest ih =>
      unfold debt_recs negSum at *
      rw [List.filterMap_cons, List.map_cons, List.sum_cons]
      by_cases hb : pb.2 < 0
      · rw [if_pos hb, if_pos hb]
        simp only [recsSum, List.map_cons, List.sum_cons] at *
        omega
      · rw [if_neg hb, if_neg hb]
        simp only [recsSum] at *
        omega

theorem recs_count (bal : List (Person × Int)) :
    (credit_recs bal).length + (debt_recs bal).length = nonzeroCount bal := by
  induction bal with
  | nil => rfl
  | cons pb rest ih =>
      unfold credit_recs debt_recs nonzeroCount at *
      rcases lt_trichotomy pb.2 0 with hb | hb | hb
      · rw [@List.filterMap_cons_none (Person × Int) BalRec
            (fun pb => if 0 < pb.2 then some (pb.2, pb.1) else none) pb rest
            (if_neg (by omega)),
          @List.filterMap_cons_some (Person × Int) BalRec
            (fun pb => if pb.2 < 0 then some (-1 * pb.2, pb.1) else none) pb rest
            (-1 * pb.2, pb.1) (if_pos hb),
          @List.filter_cons_of_pos (Person × Int)
            (fun pb => decide (pb.2 ≠ 0)) pb rest (by simp; omega)]
        simp only [List.length_cons]
        omega
      · rw [@List.filterMap_cons_none (Person × Int) BalRec
            (fun pb => if 0 < pb.2 then some (pb.2, pb.1) else none) pb rest
            (if_neg (by omega)),
          @List.filterMap_cons_none (Person × Int) BalRec
            (fun pb => if pb.2 < 0 then some (-1 * pb.2, pb.1) else none) pb rest
            (if_neg (by omega)),
          @List.filter_cons_of_neg (Person × Int)
            (fun pb => decide (pb.2 ≠ 0)) pb rest (by simp [hb])]
        omega
      · rw [@List.filterMap_cons_some (Person × Int) BalRec
            (fun pb => if 0 < pb.2 then some (pb.2, pb.1) else none) pb rest
            (pb.2, pb.1) (if_pos hb),
          @List.filterMap_cons_none (Person × Int) BalRec
            (fun pb => if pb.2 < 0 then some (-1 * pb.2, pb.1) else none) pb rest
            (if_neg (by omega)),
          @List.filter_cons_of_pos (Person × Int)
            (fun pb => decide (pb.2 ≠ 0)) pb rest (by simp; omega)]
        simp only [List.length_cons]
        omega

theorem credit_heapInv (bal : List (Person × Int)) :
    HeapInv (fun b => 0 < b) bal (heapify negAmount (credit_recs bal)) := by
  intro e he
  obtain ⟨r, hr, rfl⟩ := heapify_mem.mp he
  obtain ⟨h1, h2⟩ := credit_recs_mem hr
  exact ⟨h1, r.1, h2, h1⟩

theorem debt_heapInv (bal : List (Person × Int)) :
    HeapInv (fun b => b < 0) bal (heapify negAmount (debt_recs bal)) := by
  intro e he
  obtain ⟨r, hr, rfl⟩ := heapify_mem.mp he
  obtain ⟨h1, h2⟩ := debt_recs_mem hr
  exact ⟨h1, -r.1, h2, by omega⟩

theorem resolveLoopFuel_stop (fuel : Nat) (credit debt : Heap) (ts : List Transaction)
    (h : ¬(0 < credit.length ∧ 0 < debt.length)) :
    resolveLoopFuel fuel credit debt ts = (ts, credit, debt) := by
  cases fuel with
  | zero => rfl
  | succ fuel => rw [resolveLoopFuel, if_neg h]

/-- Workhorse invariant for the settlement loop, by induction on fuel:
the loop preserves the transaction/heap invariants, conserves the amounts
moved between heaps and transactions, and emits fewer transactions than it
consumes heap entries. -/
theorem resolveLoopFuel_spec (bal : List (Person × Int)) :
    ∀ (fuel : Nat) (credit debt : Heap) (ts : List Transaction),
    credit.length + debt.length ≤ fuel →
    HeapInv (fun b => 0 < b) bal credit →
    HeapInv (fun b => b < 0) bal debt →
    TransInv bal ts →
    TransInv bal (resolveLoopFuel fuel credit debt ts).1 ∧
    HeapInv (fun b => 0 < b) bal (resolveLoopFuel fuel credit debt ts).2.1 ∧
    HeapInv (fun b => b < 0) bal (resolveLoopFuel fuel credit debt ts).2.2 ∧
    transSum (resolveLoopFuel fuel credit debt ts).1 +
      heapSum (resolveLoopFuel fuel credit debt ts).2.1 = transSum ts + heapSum credit ∧
    transSum (resolveLoopFuel fuel credit debt ts).1 +
      heapSum (resolveLoopFuel fuel credit debt ts).2.2 = transSum ts + heapSum debt ∧
    (resolveLoopFuel fuel credit debt ts).1.length ≤
      ts.length + credit.length + debt.length ∧
    (0 < credit.length → 0 < debt.length →
      (resolveLoopFuel fuel credit debt ts).1.length + 1 ≤
        ts.length + credit.length + debt.length) := by
  intro fuel
  induction fuel with
  | zero =>
      intro credit debt ts hf hC hD hT
      have hc0 : credit.length = 0 := by omega
      refine ⟨hT, hC, hD, rfl, rfl,
        by show ts.length ≤ ts.length + credit.length + debt.length; omega, ?_⟩
      intro h1 _
      exfalso
      omega
  | succ fuel ih =>
      intro credit debt ts hf hC hD hT
      by_cases hg : 0 < credit.length ∧ 0 < debt.length
      · rw [resolveLoopFuel, if_pos hg]
        cases hd : heapPop debt with
        | none =>
            have hde := heapPop_none.mp hd
            subst hde
            simp at hg
        | some pd =>
            obtain ⟨⟨dAmt, debtor⟩, debt'⟩ := pd
            cases hc : heapPop credit with
            | none =>
                have hce := heapPop_none.mp hc
                subst hce
                simp at hg
            | some pc =>
                obtain ⟨⟨cAmt, creditor⟩, credit'⟩ := pc
                dsimp only []
                obtain ⟨⟨hd0, hdb⟩, hD'⟩ := HeapInv_pop hD hd
                obtain ⟨⟨hc0, hcb⟩, hC'⟩ := HeapInv_pop hC hc
                have hamt : 0 < min dAmt cAmt := lt_min hd0 hc0
                have hT' : TransInv bal (ts ++ [⟨debtor, creditor, min dAmt cAmt⟩]) := by
                  intro t ht
                  rcases List.mem_append.mp ht with ht | ht
                  · exact hT t ht
                  · have hte : t = ⟨debtor, creditor, min dAmt cAmt⟩ :=
                      List.mem_singleton.mp ht
                    subst hte
                    exact ⟨hamt, hdb, hcb⟩
                have hC'' : HeapInv (fun b => 0 < b) bal
                    (maybePush (cAmt - min dAmt cAmt, creditor) credit') :=
                  HeapInv_maybePush hC' fun _ => hcb
                have hD'' : HeapInv (fun b => b < 0) bal
                    (maybePush (dAmt - min dAmt cAmt, debtor) debt') :=
                  HeapInv_maybePush hD' fun _ => hdb
                have hlc := heapPop_length hc
                have hld := heapPop_length hd
                have hlp := settle_push_length dAmt cAmt creditor debtor credit' debt'
                have hfuel' : (maybePush (cAmt - min dAmt cAmt, creditor) credit').length +
                    (maybePush (dAmt - min dAmt cAmt, debtor) debt').length ≤ fuel := by
                  omega
                obtain ⟨iT, iC, iD, iSc, iSd, iLen, iLen2⟩ :=
                  ih _ _ _ hfuel' hC'' hD'' hT'
                have hsc := heapPop_sum hc
                have hsd := heapPop_sum hd
                have hmc : heapSum (maybePush (cAmt - min dAmt cAmt, creditor) credit') =
                    heapSum credit' + (cAmt - min dAmt cAmt) :=
                  maybePush_sum_pos _ _ (by have := min_le_right dAmt cAmt; omega)
                have hmd : heapSum (maybePush (dAmt - min dAmt cAmt, debtor) debt') =
                    heapSum debt' + (dAmt - min dAmt cAmt) :=
                  maybePush_sum_pos _ _ (by have := min_le_left dAmt cAmt; omega)
                have hta : transSum (ts ++ [⟨debtor, creditor, min dAmt cAmt⟩]) =
                    transSum ts + min dAmt cAmt := transSum_append ts _
                have htl : (ts ++ [(⟨debtor, creditor, min dAmt cAmt⟩ : Transaction)]).length =
                    ts.length + 1 := by simp
                refine ⟨iT, iC, iD, by omega, by omega, by omega, ?_⟩
                intro _ _
                by_cases hg' : 0 < (maybePush (cAmt - min dAmt cAmt, creditor) credit').length ∧
                    0 < (maybePush (dAmt - min dAmt cAmt, debtor) debt').length
                · have := iLen2 hg'.1 hg'.2
                  omega
                · rw [resolveLoopFuel_stop fuel _ _ _ hg']
                  dsimp only []
                  rw [htl]
                  omega
      · rw [resolveLoopFuel_stop _ _ _ _ hg]
        refine ⟨hT, hC, hD, rfl, rfl,
          by show ts.length ≤ ts.length + credit.length + debt.length; omega, ?_⟩
        intro h1 h2
        exact absurd ⟨h1, h2⟩ hg

/-- Transfer of `resolveLoopFuel_spec` to the loop itself. -/
theorem resolveLoop_spec (bal : List (Person × Int)) (credit debt : Heap)
    (ts : List Transaction)
    (hC : HeapInv (fun b => 0 < b) bal credit)
    (hD : HeapInv (fun b => b < 0) bal debt)
    (hT : TransInv bal ts) :
    TransInv bal (resolveLoop credit debt ts).1 ∧
    HeapInv (fun b => 0 < b) bal (resolveLoop credit debt ts).2.1 ∧
    HeapInv (fun b => b < 0) bal (resolveLoop credit debt ts).2.2 ∧
    transSum (resolveLoop credit debt ts).1 +
      heapSum (resolveLoop credit debt ts).2.1 = transSum ts + heapSum credit ∧
    transSum (resolveLoop credit debt ts).1 +
      heapSum (resolveLoop credit debt ts).2.2 = transSum ts + heapSum debt ∧
    (resolveLoop credit debt ts).1.length ≤ ts.length + credit.length + debt.length ∧
    (0 < credit.length → 0 < debt.length →
      (resolveLoop credit debt ts).1.length + 1 ≤
        ts.length + credit.length + debt.length) := by
  have h := resolveLoopFuel_spec bal (credit.length + debt.length) credit debt ts
    (le_refl _) hC hD hT
  rwa [resolveLoopFuel_eq _ _ _ _ (le_refl _)] at h

/-- Round-half-even integer rounding of the fraction `m / n` (for `0 < n`):
the value of `Decimal.quantize(Decimal("0.01"))` under the default
`ROUND_HALF_EVEN` context applied to the cent value `m / n`.  `q` is the
floor quotient and `r` the remainder; a remainder beyond half a unit rounds
up, below rounds down, and an exact half goes to the even neighbour. -/
def roundHalfEvenDiv (m n : Int) : Int :=
  if 2 * (m % n) < n then m / n
  else if n < 2 * (m % n) then m / n + 1
  else if (m / n) % 2 = 0 then m / n else m / n + 1

/-- Python `balances.get(person, Decimal("0.00"))` on the association-list
model of the dict. -/
def dictGet (d : List (Person × Int)) (p : Person) : Int :=
  match d with
  | [] => 0
  | (q, w) :: rest => if q = p then w else dictGet rest p

/-- Python `balances[person] = v`: update in place when the key exists
(keeping insertion order), append otherwise. -/
def dictSet (d : List (Person × Int)) (p : Person) (v : Int) : List (Person × Int) :=
  match d with
  | [] => [(p, v)]
  | (q, w) :: rest => if q = p then (q, v) :: rest else (q, w) :: dictSet rest p v

/-- An expense record as consumed by `calculate_balances` once the three
fields are read: sponsor, debtors and a 2-fractional-digit amount (cents). -/
structure ExpenseRecord where
  sponsor : Person
  debtors : List Person
  amount : Int
deriving DecidableEq, Repr

/-- One iteration of the debit loop at lines 144-147 of the source:
`balances[person] = (prev_balance - owed).quantize(Decimal("0.01"))` with
`owed = amount / n` kept exact, so the stored value is the half-even
rounding of `(prev * n - amount) / n` cents. -/
def debitPerson (a n : Int) (b : List (Person × Int)) (person : Person) :
    List (Person × Int) :=
  dictSet b person (roundHalfEvenDiv (dictGet b person * n - a) n)

/-- The body of the record loop of `calculate_balances` (lines 132-147):
credit the sponsor with the full amount, then debit every participant
(sponsor included, line 136) by the rounded share. -/
def processRecord (bal : List (Person × Int)) (r : ExpenseRecord) :
    List (Person × Int) :=
  let allPeople := r.sponsor :: r.debtors
  let n : Int := allPeople.length
  let bal1 := dictSet bal r.sponsor (dictGet bal r.sponsor + r.amount)
  allPeople.foldl (debitPerson r.amount n) bal1

/-- The function `calculate_balances(records)` of the source. -/
def calculate_balances (records : List ExpenseRecord) : List (Person × Int) :=
  records.foldl processRecord []

/-- Stated from the claim's words (C4), for comparison with the source:
round the share `amount / n` to cents once, then debit each participant's
balance by that rounded share. -/
def debitPersonShareC4 (a n : Int) (b : List (Person × Int)) (person : Person) :
    List (Person × Int) :=
  dictSet b person (dictGet b person - roundHalfEvenDiv a n)

/-- The aggregation the claim C4 describes, built from `debitPersonShareC4`. -/
def calculate_balances_claimC4 (records : List ExpenseRecord) :
    List (Person × Int) :=
  records.foldl (fun bal r =>
    let allPeople := r.sponsor :: r.debtors
    let n : Int := allPeople.length
    let bal1 := dictSet bal r.sponsor (dictGet bal r.sponsor + r.amount)
    allPeople.foldl (debitPersonShareC4 r.amount n) bal1) []

/-- A raw record as `calculate_balances` receives it: a dict that may be
missing any of the three keys read at lines 133-135 (a missing key raises
`KeyError` in Python; a present amount is a numeric cent value). -/
structure RawRecord where
  sponsor : Option Person
  debtors : Option (List Person)
  amount : Option Int
deriving DecidableEq, Repr

/-- The record loop of `calculate_balances` over raw records: reading a
missing field fails (Python `KeyError`), in the order the source reads the
fields; the amount's value itself is never validated. -/
def calculate_balances_raw_go (bal : List (Person × Int)) :
    List RawRecord → Except String (List (Person × Int))
  | [] => .ok bal
  | r :: rs =>
      match r.sponsor with
      | none => .error "KeyError: sponsor"
      | some sp =>
          match r.debtors with
          | none => .error "KeyError: debtors"
          | some ds =>
              match r.amount with
              | none => .error "KeyError: amount"
              | some a => calculate_balances_raw_go (processRecord bal ⟨sp, ds, a⟩) rs

/-- `calculate_balances` on raw records, starting from the empty dict. -/
def calculate_balances_raw (records : List RawRecord) :
    Except String (List (Person × Int)) :=
  calculate_balances_raw_go [] records

/-- Sum of all balances in the returned dict. -/
def sumValues (d : List (Person × Int)) : Int := (d.map Prod.snd).sum

/-- Total number of participant slots across all records:
`len([sponsor] + debtors)` summed over the records. -/
def totalSlots (records : List ExpenseRecord) : Nat :=
  (records.map fun r => 1 + r.debtors.length).sum

example : calculate_balances [⟨"A", ["B"], 5⟩] = [("A", 2), ("B", -2)] := by decide

example : calculate_balances_claimC4 [⟨"A", ["B"], 5⟩] = [("A", 3), ("B", -2)] := by decide

example : calculate_balances [⟨"A", ["B", "C"], 1000⟩] =
    [("A", 667), ("B", -333), ("C", -333)] := by decide

example : calculate_balances [⟨"A", ["B", "C"], 3000⟩] =
    [("A", 2000), ("B", -1000), ("C", -1000)] := by decide

example : calculate_balances_raw [⟨some "A", some ["B"], some (-500)⟩] =
    .ok [("A", -250), ("B", 250)] := rfl

example : calculate_balances_raw [⟨none, some ["B"], some 500⟩] =
    .error "KeyError: sponsor" := rfl

theorem roundHalfEvenDiv_bound (m n : Int) (hn : 0 < n) :
    |2 * (n * roundHalfEvenDiv m n - m)| ≤ n := by
  unfold roundHalfEvenDiv
  have h1 := Int.ediv_add_emod m n
  have h2 := Int.emod_nonneg m (ne_of_gt hn)
  have h3 := Int.emod_lt_of_pos m hn
  have h4 : n * (m / n + 1) = n * (m / n) + n := by ring
  rw [abs_le]
  split_ifs with ha hb hc <;> constructor <;> omega

theorem roundHalfEvenDiv_tie_even (m n : Int) (hn : 0 < n)
    (ht : 2 * (n * roundHalfEvenDiv m n - m) = n ∨
      2 * (n * roundHalfEvenDiv m n - m) = -n) :
    roundHalfEvenDiv m n % 2 = 0 := by
  unfold roundHalfEvenDiv at *
  have h1 := Int.ediv_add_emod m n
  have h2 := Int.emod_nonneg m (ne_of_gt hn)
  have h3 := Int.emod_lt_of_pos m hn
  have h4 : n * (m / n + 1) = n * (m / n) + n := by ring
  split_ifs at * with ha hb hc <;> omega

theorem dictGet_dictSet_self (d : List (Person × Int)) (p : Person) (v : Int) :
    dictGet (dictSet d p v) p = v := by
  induction d with
  | nil => simp [dictSet, dictGet]
  | cons qw rest ih =>
      obtain ⟨q, w⟩ := qw
      by_cases hq : q = p
      · simp [dictSet, dictGet, hq]
      · simp [dictSet, dictGet, hq, ih]

theorem sumValues_dictSet (d : List (Person × Int)) (p : Person) (v : Int) :
    sumValues (dictSet d p v) = sumValues d - dictGet d p + v := by
  induction d with
  | nil => simp [dictSet, dictGet, sumValues]
  | cons qw rest ih =>
      obtain ⟨q, w⟩ := qw
      by_cases hq : q = p
      · simp only [dictSet, dictGet, if_pos hq, sumValues, List.map_cons, List.sum_cons]
        omega
      · simp only [dictSet, dictGet, if_neg hq, sumValues, List.map_cons, List.sum_cons]
        simp only [sumValues] at ih
        omega

theorem debitPerson_sum_bound (a n : Int) (b : List (Person × Int)) (person : Person)
    (hn : 0 < n) :
    |2 * (n * (sumValues (debitPerson a n b person) - sumValues b) + a)| ≤ n := by
  unfold debitPerson
  rw [sumValues_dictSet]
  have hb := roundHalfEvenDiv_bound (dictGet b person * n - a) n hn
  have key : 2 * (n * (sumValues b - dictGet b person +
      roundHalfEvenDiv (dictGet b person * n - a) n - sumValues b) + a) =
      2 * (n * roundHalfEvenDiv (dictGet b person * n - a) n -
        (dictGet b person * n - a)) := by
    ring
  rw [key]
  exact hb

theorem debit_fold_bound (a n : Int) (hn : 0 < n) : ∀ (ppl : List Person)
    (b : List (Person × Int)),
    |2 * (n * (sumValues (ppl.foldl (debitPerson a n) b) - sumValues b) +
      (ppl.length : Int) * a)| ≤ (ppl.length : Int) * n := by
  intro ppl
  induction ppl with
  | nil => intro b; simp
  | cons x xs ih =>
      intro b
      simp only [List.foldl_cons, List.length_cons]
      push_cast
      have h1 := debitPerson_sum_bound a n b x hn
      have h2 := ih (debitPerson a n b x)
      have key : 2 * (n * (sumValues (xs.foldl (debitPerson a n) (debitPerson a n b x)) -
            sumValues b) + ((xs.length : Int) + 1) * a) =
          2 * (n * (sumValues (xs.foldl (debitPerson a n) (debitPerson a n b x)) -
            sumValues (debitPerson a n b x)) + (xs.length : Int) * a) +
          2 * (n * (sumValues (debitPerson a n b x) - sumValues b) + a) := by
        ring
      rw [key]
      calc |2 * (n * (sumValues (xs.foldl (debitPerson a n) (debitPerson a n b x)) -
            sumValues (debitPerson a n b x)) + (xs.length : Int) * a) +
          2 * (n * (sumValues (debitPerson a n b x) - sumValues b) + a)|
          ≤ |2 * (n * (sumValues (xs.foldl (debitPerson a n) (debitPerson a n b x)) -
            sumValues (debitPerson a n b x)) + (xs.length : Int) * a)| +
          |2 * (n * (sumValues (debitPerson a n b x) - sumValues b) + a)| := abs_add _ _
        _ ≤ (xs.length : Int) * n + n := add_le_add h2 h1
        _ = ((xs.length : Int) + 1) * n := by ring

theorem processRecord_sum_bound (bal : List (Person × Int)) (r : ExpenseRecord) :
    |sumValues (processRecord bal r) - sumValues bal| ≤ 1 + (r.debtors.length : Int) := by
  unfold processRecord
  have hn : (0 : Int) < ((r.sponsor :: r.debtors).length : Int) := by
    simp only [List.length_cons]
    push_cast
    omega
  have hs1 : sumValues (dictSet bal r.sponsor (dictGet bal r.sponsor + r.amount)) =
      sumValues bal + r.amount := by
    rw [sumValues_dictSet]
    omega
  have hfold := debit_fold_bound r.amount ((r.sponsor :: r.debtors).length : Int) hn
    (r.sponsor :: r.debtors) (dictSet bal r.sponsor (dictGet bal r.sponsor + r.amount))
  rw [hs1] at hfold
  set n : Int := ((r.sponsor :: r.debtors).length : Int) with hnd
  set S2 : Int := sumValues ((r.sponsor :: r.debtors).foldl
    (debitPerson r.amount n)
    (dictSet bal r.sponsor (dictGet bal r.sponsor + r.amount))) with hS2
  have key : 2 * (n * (S2 - (sumValues bal + r.amount)) + n * r.amount) =
      n * (2 * (S2 - sumValues bal)) := by ring
  rw [key] at hfold
  have habs : |n * (2 * (S2 - sumValues bal))| = n * |2 * (S2 - sumValues bal)| := by
    rw [abs_mul, abs_of_pos hn]
  rw [habs] at hfold
  have hnn : n * n = n * |n| := by rw [abs_of_pos hn]
  have hle : |2 * (S2 - sumValues bal)| ≤ n :=
    Int.le_of_mul_le_mul_left hfold hn
  have habs2 : |S2 - sumValues bal| ≤ n := by
    have h0 : 0 ≤ |S2 - sumValues bal| := abs_nonneg _
    have h2a : |2 * (S2 - sumValues bal)| = 2 * |S2 - sumValues bal| := by
      rw [abs_mul]
      simp
    omega
  have hfin : n = 1 + (r.debtors.length : Int) := by
    rw [hnd]
    simp only [List.length_cons]
    push_cast
    omega
  rw [← hfin]
  exact habs2

theorem foldl_processRecord_bound : ∀ (records : List ExpenseRecord)
    (bal : List (Person × Int)),
    |sumValues (records.foldl processRecord bal) - sumValues bal| ≤
      (totalSlots records : Int) := by
  intro records
  induction records with
  | nil => intro bal; simp [totalSlots]
  | cons r rs ih =>
      intro bal
      simp only [List.foldl_cons]
      have hts : totalSlots (r :: rs) = 1 + r.debtors.length + totalSlots rs := by
        simp [totalSlots]
      rw [hts]
      have h1 := processRecord_sum_bound bal r
      have h2 := ih (processRecord bal r)
      have key : sumValues (rs.foldl processRecord (processRecord bal r)) - sumValues bal =
          (sumValues (rs.foldl processRecord (processRecord bal r)) -
            sumValues (processRecord bal r)) +
          (sumValues (processRecord bal r) - sumValues bal) := by ring
      rw [key]
      have htri := abs_add
        (sumValues (rs.foldl processRecord (processRecord bal r)) -
          sumValues (processRecord bal r))
        (sumValues (processRecord bal r) - sumValues bal)
      omega

theorem calculate_balances_raw_go_ok : ∀ (records : List RawRecord)
    (bal : List (Person × Int)),
    (∃ d, calculate_balances_raw_go bal records = .ok d) ↔
      ∀ r ∈ records, r.sponsor.isSome ∧ r.debtors.isSome ∧ r.amount.isSome := by
  intro records
  induction records with
  | nil =>
      intro bal
      simp [calculate_balances_raw_go]
  | cons r rs ih =>
      intro bal
      obtain ⟨os, od, oa⟩ := r
      cases os with
      | none => simp [calculate_balances_raw_go]
      | some sp =>
          cases od with
          | none => simp [calculate_balances_raw_go]
          | some ds =>
              cases oa with
              | none => simp [calculate_balances_raw_go]
              | some a =>
                  simp only [calculate_balances_raw_go, List.mem_cons]
                  rw [ih]
                  constructor
                  · intro hall t ht
                    rcases ht with rfl | ht
                    · simp
                    · exact hall t ht
                  · intro hall t ht
                    exact hall t (Or.inr ht)

/-- The failure `PrioFuncHeap.pop` hits on an empty container:
`heapq.heappop` on an empty list raises `IndexError` (the specification
names this condition its empty-container error).  Modelled as an `Except`
failure carrying the Python error message. -/
def heapPopE (h : Heap) : Except String (BalRec × Heap) :=
  match heapPop h with
  | none => .error "IndexError: index out of range"
  | some x => .ok x

/-- Exception-aware version of the settlement loop: every pop goes through
`heapPopE`, so a pop on an empty heap would surface as an error instead of
being silently absorbed as in `resolveLoop`'s unreachable arms. -/
def resolveLoopE (credit debt : Heap) (ts : List Transaction) :
    Except String (List Transaction × Heap × Heap) :=
  if 0 < credit.length ∧ 0 < debt.length then
    match hd : heapPopE debt with
    | .error e => .error e
    | .ok ((dAmt, debtor), debt') =>
        match hc : heapPopE credit with
        | .error e => .error e
        | .ok ((cAmt, creditor), credit') =>
            resolveLoopE
              (maybePush (cAmt - min dAmt cAmt, creditor) credit')
              (maybePush (dAmt - min dAmt cAmt, debtor) debt')
              (ts ++ [⟨debtor, creditor, min dAmt cAmt⟩])
  else .ok (ts, credit, debt)
termination_by credit.length + debt.length
decreasing_by
  have h1 : heapPop debt = some ((dAmt, debtor), debt') := by
    unfold heapPopE at hd
    cases hp : heapPop debt with
    | none => rw [hp] at hd; cases hd
    | some x => rw [hp] at hd; cases hd; rfl
  have h2 : heapPop credit = some ((cAmt, creditor), credit') := by
    unfold heapPopE at hc
    cases hp : heapPop credit with
    | none => rw [hp] at hc; cases hc
    | some x => rw [hp] at hc; cases hc; rfl
  have h3 := heapPop_length h1
  have h4 := heapPop_length h2
  have h5 := settle_push_length dAmt cAmt creditor debtor credit' debt'
  omega

/-- Exception-aware version of the draining iteration. -/
def drainE (h : Heap) : Except String (List BalRec) :=
  if 0 < h.length then
    match hp : heapPopE h with
    | .error e => .error e
    | .ok (r, h') =>
        match drainE h' with
        | .error e => .error e
        | .ok rs => .ok (r :: rs)
  else .ok []
termination_by h.length
decreasing_by
  have h1 : heapPop h = some (r, h') := by
    unfold heapPopE at hp
    cases hq : heapPop h with
    | none => rw [hq] at hp; cases hp
    | some x => rw [hq] at hp; cases hp; rfl
  have := heapPop_length h1
  omega

/-- Exception-aware `resolve_transfers`: the loop and both drains run
through the `Except` layer. -/
def resolve_transfersE (balances : List (Person × Int)) :
    Except String (List Transaction × List BalRec × List BalRec) :=
  let credit_heap := heapify negAmount (credit_recs balances)
  let debt_heap := heapify negAmount (debt_recs balances)
  match resolveLoopE credit_heap debt_heap [] with
  | .error e => .error e
  | .ok res =>
      match drainE res.2.2 with
      | .error e => .error e
      | .ok ud =>
          match drainE res.2.1 with
          | .error e => .error e
          | .ok uc => .ok (res.1, ud, uc)

theorem resolveLoopE_eq_fuel : ∀ (fuel : Nat) (credit debt : Heap)
    (ts : List Transaction), credit.length + debt.length ≤ fuel →
    resolveLoopE credit debt ts = .ok (resolveLoop credit debt ts) := by
  intro fuel
  induction fuel with
  | zero =>
      intro credit debt ts hf
      unfold resolveLoopE resolveLoop
      rw [if_neg (by omega), if_neg (by omega)]
  | succ fuel ih =>
      intro credit debt ts hf
      unfold resolveLoopE resolveLoop
      by_cases hg : 0 < credit.length ∧ 0 < debt.length
      · rw [if_pos hg, if_pos hg]
        unfold heapPopE
        cases hd : heapPop debt with
        | none =>
            have hde := heapPop_none.mp hd
            subst hde
            simp at hg
        | some pd =>
            obtain ⟨⟨dAmt, debtor⟩, debt'⟩ := pd
            cases hc : heapPop credit with
            | none =>
                have hce := heapPop_none.mp hc
                subst hce
                simp at hg
            | some pc =>
                obtain ⟨⟨cAmt, creditor⟩, credit'⟩ := pc
                have h3 := heapPop_length hd
                have h4 := heapPop_length hc
                have h5 := settle_push_length dAmt cAmt creditor debtor credit' debt'
                exact ih (maybePush (cAmt - min dAmt cAmt, creditor) credit')
                  (maybePush (dAmt - min dAmt cAmt, debtor) debt')
                  (ts ++ [⟨debtor, creditor, min dAmt cAmt⟩]) (by omega)
      · rw [if_neg hg, if_neg hg]

theorem resolveLoopE_eq (credit debt : Heap) (ts : List Transaction) :
    resolveLoopE credit debt ts = .ok (resolveLoop credit debt ts) :=
  resolveLoopE_eq_fuel (credit.length + debt.length) credit debt ts (le_refl _)

theorem drainE_eq_fuel : ∀ (fuel : Nat) (h : Heap), h.length ≤ fuel →
    drainE h = .ok (drain h) := by
  intro fuel
  induction fuel with
  | zero =>
      intro h hf
      unfold drainE drain
      rw [if_neg (by omega), if_neg (by omega)]
  | succ fuel ih =>
      intro h hf
      unfold drainE drain
      by_cases hg : 0 < h.length
      · rw [if_pos hg, if_pos hg]
        unfold heapPopE
        cases hp : heapPop h with
        | none =>
            have hh := heapPop_none.mp hp
            subst hh
            simp at hg
        | some p =>
            obtain ⟨r, h'⟩ := p
            have hl := heapPop_length hp
            show (match drainE h' with
              | Except.error e => Except.error e
              | Except.ok rs => Except.ok (r :: rs)) = Except.ok (r :: drain h')
            rw [ih h' (by omega)]
      · rw [if_neg hg, if_neg hg]

theorem drainE_eq (h : Heap) : drainE h = .ok (drain h) :=
  drainE_eq_fuel h.length h (le_refl _)

theorem resolve_transfersE_ok (balances : List (Person × Int)) :
    resolve_transfersE balances = .ok (resolve_transfers balances) := by
  unfold resolve_transfersE resolve_transfers
  simp only [resolveLoopE_eq, drainE_eq]

/-- State-passing embedding of `resolve_transfers` for the frame claim C9:
the balances dict is threaded as explicit state through the call.  The
source only reads the dict (`balances.items()` at lines 80 and 87) and
contains no assignment into it, so the embedding returns the state it was
given together with the ordinary result. -/
def resolve_transfers_state (balances : List (Person × Int)) :
    (List Transaction × List BalRec × List BalRec) × List (Person × Int) :=
  let itemsForCredit := balances
  let itemsForDebt := balances
  let credit_heap := heapify negAmount (credit_recs itemsForCredit)
  let debt_heap := heapify negAmount (debt_recs itemsForDebt)
  let res := resolveLoop credit_heap debt_heap []
  ((res.1, drain res.2.2, drain res.2.1), balances)

theorem resolve_transfers_def (balances : List (Person × Int)) :
    resolve_transfers balances =
      ((resolveLoop (heapify negAmount (credit_recs balances))
          (heapify negAmount (debt_recs balances)) []).1,
       drain (resolveLoop (heapify negAmount (credit_recs balances))
          (heapify negAmount (debt_recs balances)) []).2.2,
       drain (resolveLoop (heapify negAmount (credit_recs balances))
          (heapify negAmount (debt_recs balances)) []).2.1) := rfl

theorem TransInv_nil (bal : List (Person × Int)) : TransInv bal [] := by
  intro t ht
  exact absurd ht (List.not_mem_nil t)

/-- C1 (counterexample): on the balance map `A ↦ +2.00, B ↦ -1.00` the
claimed three-way conservation chain fails: the transferred total plus the
signed residual sum equals the sum of initial positive balances (2.00) but
not the negated sum of initial negative balances (1.00), and no rounding
tolerance is in play since the discrepancy is a full 1.00. -/
theorem C1_cex :
    transSum (resolve_transfers [("A", 200), ("B", -100)]).1 +
      (recsSum (resolve_transfers [("A", 200), ("B", -100)]).2.2 -
        recsSum (resolve_transfers [("A", 200), ("B", -100)]).2.1) =
      posSum [("A", 200), ("B", -100)] ∧
    transSum (resolve_transfers [("A", 200), ("B", -100)]).1 +
      (recsSum (resolve_transfers [("A", 200), ("B", -100)]).2.2 -
        recsSum (resolve_transfers [("A", 200), ("B", -100)]).2.1) ≠
      -(negSum [("A", 200), ("B", -100)]) := by
  rw [resolve_transfers_eval]
  decide

/-- C1 (amended): the conservation that does hold, exactly and for every
input balance map: the transferred total plus the credit-side residual
equals the sum of initial positive balances, and the transferred total plus
the debt-side residual (stored as positive magnitudes) equals the negated
sum of initial negative balances.  The claimed signed-sum three-way chain
only follows when the positive and negative sides already cancel. -/
theorem C1_conservation_amended (balances : List (Person × Int)) :
    transSum (resolve_transfers balances).1 +
      recsSum (resolve_transfers balances).2.2 = posSum balances ∧
    transSum (resolve_transfers balances).1 +
      recsSum (resolve_transfers balances).2.1 = -(negSum balances) := by
  obtain ⟨_, _, _, hSc, hSd, _, _⟩ := resolveLoop_spec balances
    (heapify negAmount (credit_recs balances))
    (heapify negAmount (debt_recs balances)) []
    (credit_heapInv balances) (debt_heapInv balances) (TransInv_nil balances)
  rw [resolve_transfers_def]
  dsimp only []
  rw [drain_recsSum, drain_recsSum]
  have h1 : transSum [] = 0 := rfl
  have h2 := heapify_sum negAmount (credit_recs balances)
  have h3 := heapify_sum negAmount (debt_recs balances)
  have h4 := credit_recs_sum balances
  have h5 := debt_recs_sum balances
  omega

/-- C2 (confirmed): every transaction emitted by `resolve_transfers` has a
strictly positive amount, a sender whose starting balance is strictly
negative, and a receiver whose starting balance is strictly positive; in
particular a net creditor is never asked to send money. -/
theorem C2_transaction_signs (balances : List (Person × Int)) :
    ∀ t ∈ (resolve_transfers balances).1, 0 < t.amount ∧
      (∃ b : Int, (t.sender, b) ∈ balances ∧ b < 0) ∧
      ∃ b : Int, (t.receiver, b) ∈ balances ∧ 0 < b := by
  obtain ⟨hT, _, _, _, _, _, _⟩ := resolveLoop_spec balances
    (heapify negAmount (credit_recs balances))
    (heapify negAmount (debt_recs balances)) []
    (credit_heapInv balances) (debt_heapInv balances) (TransInv_nil balances)
  intro t ht
  rw [resolve_transfers_def] at ht
  exact hT t ht

theorem C2_transaction_signs_witness :
    0 < (100 : Int) ∧
    (∃ b : Int, (("B" : Person), b) ∈
      [(("A" : Person), (200 : Int)), ("B", -100)] ∧ b < 0) ∧
    ∃ b : Int, (("A" : Person), b) ∈
      [(("A" : Person), (200 : Int)), ("B", -100)] ∧ 0 < b :=
  C2_transaction_signs [("A", 200), ("B", -100)] ⟨"B", "A", 100⟩
    (by rw [resolve_transfers_eval]; decide)

/-- C3 (confirmed): on a balance map with distinct people (a dict),
`resolve_transfers` emits at most `n - 1` transactions, `n` being the
number of people with a nonzero starting balance (natural subtraction, so
the bound reads 0 when n = 0). -/
theorem C3_transaction_count (balances : List (Person × Int))
    (hnd : (balances.map Prod.fst).Nodup) :
    (resolve_transfers balances).1.length ≤ nonzeroCount balances - 1 := by
  obtain ⟨_, _, _, _, _, hLen, hLen2⟩ := resolveLoop_spec balances
    (heapify negAmount (credit_recs balances))
    (heapify negAmount (debt_recs balances)) []
    (credit_heapInv balances) (debt_heapInv balances) (TransInv_nil balances)
  rw [resolve_transfers_def]
  dsimp only []
  have hcount := recs_count balances
  have hlc := heapify_length negAmount (credit_recs balances)
  have hld := heapify_length negAmount (debt_recs balances)
  by_cases hg : 0 < (heapify negAmount (credit_recs balances)).length ∧
      0 < (heapify negAmount (debt_recs balances)).length
  · have := hLen2 hg.1 hg.2
    simp only [List.length_nil] at this
    omega
  · rw [resolveLoop_of_stop _ _ _ hg]
    simp

theorem C3_transaction_count_witness :
    (resolve_transfers [("A", 200), ("B", -100)]).1.length ≤
      nonzeroCount [("A", 200), ("B", -100)] - 1 :=
  C3_transaction_count [("A", 200), ("B", -100)] (by decide)

/-- C4 (counterexample): the claim says each debit subtracts the share
rounded once (`share = round(amount / n)`).  On the single record
`sponsor A, debtors [B], amount 0.05` the source leaves A at 0.02 while the
claimed procedure leaves A at 0.03, because the source rounds the resulting
balance (2.5 cents, tie, parity of the running balance decides) rather than
the share (also 2.5 cents, but rounded from 0). -/
theorem C4_cex :
    calculate_balances [⟨"A", ["B"], 5⟩] ≠
      calculate_balances_claimC4 [⟨"A", ["B"], 5⟩] := by decide

/-- C4 (amended): each debit subtracts the exact (unrounded) share from the
running balance and stores the half-even rounding of the result: the stored
value is `roundHalfEvenDiv (prev * n - amount) n`, which is within half a
cent of `prev - amount / n` and lands on an even cent on exact half-cent
ties.  Rounding is applied independently at each debit, as the claim says. -/
theorem C4_rounding_amended (b : List (Person × Int)) (person : Person)
    (a n : Int) (hn : 0 < n) :
    dictGet (debitPerson a n b person) person =
      roundHalfEvenDiv (dictGet b person * n - a) n ∧
    |2 * (n * dictGet (debitPerson a n b person) person -
      (dictGet b person * n - a))| ≤ n ∧
    (2 * (n * dictGet (debitPerson a n b person) person -
        (dictGet b person * n - a)) = n ∨
      2 * (n * dictGet (debitPerson a n b person) person -
        (dictGet b person * n - a)) = -n →
      dictGet (debitPerson a n b person) person % 2 = 0) := by
  have hself : dictGet (debitPerson a n b person) person =
      roundHalfEvenDiv (dictGet b person * n - a) n :=
    dictGet_dictSet_self b person _
  refine ⟨hself, ?_, ?_⟩
  · rw [hself]
    exact roundHalfEvenDiv_bound (dictGet b person * n - a) n hn
  · rw [hself]
    exact roundHalfEvenDiv_tie_even (dictGet b person * n - a) n hn

theorem C4_rounding_amended_witness :
    dictGet (debitPerson 5 2 [] "A") "A" =
      roundHalfEvenDiv (dictGet [] "A" * 2 - 5) 2 ∧
    |2 * (2 * dictGet (debitPerson 5 2 [] "A") "A" -
      (dictGet [] "A" * 2 - 5))| ≤ 2 ∧
    (2 * (2 * dictGet (debitPerson 5 2 [] "A") "A" -
        (dictGet [] "A" * 2 - 5)) = 2 ∨
      2 * (2 * dictGet (debitPerson 5 2 [] "A") "A" -
        (dictGet [] "A" * 2 - 5)) = -2 →
      dictGet (debitPerson 5 2 [] "A") "A" % 2 = 0) :=
  C4_rounding_amended [] "A" 5 2 (by decide)

/-- C5 (confirmed): for records with non-negative cent amounts, the sum of
all aggregated balances is within ±0.01 times the total number of
participant slots of zero (in cents: its absolute value is at most the slot
count). -/
theorem C5_aggregate_sum_bound (records : List ExpenseRecord)
    (hamt : ∀ r ∈ records, 0 ≤ r.amount) :
    |sumValues (calculate_balances records)| ≤ (totalSlots records : Int) := by
  have h := foldl_processRecord_bound records []
  unfold calculate_balances
  simpa [sumValues] using h

theorem C5_aggregate_sum_bound_witness :
    |sumValues (calculate_balances [⟨"A", ["B", "C"], 1000⟩])| ≤
      (totalSlots [⟨"A", ["B", "C"], 1000⟩] : Int) :=
  C5_aggregate_sum_bound [⟨"A", ["B", "C"], 1000⟩] (by decide)

/-- C6 (counterexample): `resolve_transfers` on the balance map `A ↦ -1.00`
returns a triple, not a pair: the transactions, the leftover debt records
and the leftover credit records.  The debt-side residual entry is
`(1.00, A)` — an `(amount, person)` pair carrying the positive magnitude,
the negation of A's original signed value -1.00 — so residual entries do
not carry their original signed values as claimed. -/
theorem C6_cex :
    resolve_transfers [("A", -100)] = ([], [(100, "A")], []) ∧
    (100 : Int) = -(-100) ∧ ¬((100 : Int) = -100) := by
  rw [resolve_transfers_eval]
  decide

/-- C6 (amended): `resolve_transfers` returns a triple
`(transactions, unbalanced_debt, unbalanced_credit)`; every debt residual
is an `(amount, person)` record with a strictly positive amount for a
person whose starting balance was strictly negative, every credit residual
likewise for a person who started strictly positive, and the empty balance
map yields `([], [], [])`. -/
theorem C6_residual_shape_amended (balances : List (Person × Int)) :
    resolve_transfers ([] : List (Person × Int)) = ([], [], []) ∧
    (∀ e ∈ (resolve_transfers balances).2.1, 0 < e.1 ∧
      ∃ b : Int, (e.2, b) ∈ balances ∧ b < 0) ∧
    ∀ e ∈ (resolve_transfers balances).2.2, 0 < e.1 ∧
      ∃ b : Int, (e.2, b) ∈ balances ∧ 0 < b := by
  obtain ⟨_, hC, hD, _, _, _, _⟩ := resolveLoop_spec balances
    (heapify negAmount (credit_recs balances))
    (heapify negAmount (debt_recs balances)) []
    (credit_heapInv balances) (debt_heapInv balances) (TransInv_nil balances)
  refine ⟨by rw [resolve_transfers_eval]; decide, ?_, ?_⟩
  · intro e he
    rw [resolve_transfers_def] at he
    obtain ⟨q, hq⟩ := drain_mem he
    exact hD (q, e) hq
  · intro e he
    rw [resolve_transfers_def] at he
    obtain ⟨q, hq⟩ := drain_mem he
    exact hC (q, e) hq

theorem C6_residual_shape_amended_witness :
    0 < (100 : Int) ∧
    ∃ b : Int, (("A" : Person), b) ∈ [(("A" : Person), (-100 : Int))] ∧ b < 0 :=
  (C6_residual_shape_amended [("A", -100)]).2.1 (100, "A")
    (by rw [resolve_transfers_eval]; decide)

/-- C7 (counterexample): a record whose amount is present but negative
(`-5.00`) is aggregated without any failure — the source never validates
the amount — whereas the claim requires a validation failure for amounts
that are not valid non-negative currency values. -/
theorem C7_cex :
    calculate_balances_raw [⟨some "A", some ["B"], some (-500)⟩] =
      .ok [("A", -250), ("B", 250)] := rfl

/-- C7 (amended): aggregation fails (Python `KeyError`) exactly when some
record is missing `sponsor`, `debtors` or `amount`, and never fails on
well-formed records; the amount's value is not validated, so negative
amounts are accepted. -/
theorem C7_validation_amended (records : List RawRecord) :
    (∃ d, calculate_balances_raw records = .ok d) ↔
      ∀ r ∈ records, r.sponsor.isSome ∧ r.debtors.isSome ∧ r.amount.isSome :=
  calculate_balances_raw_go_ok records []

/-- C8 (confirmed): popping from an empty priority container fails (the
`Except` model of the `IndexError` that `heapq.heappop` raises, which the
specification calls the empty-container error), and this failure is
unreachable from `resolve_transfers`: with every pop routed through the
failing variant, the function still returns `ok` on every input, because
the loop's length guard and the drains' length guards ensure no pop ever
sees an empty container. -/
theorem C8_empty_pop_unreachable :
    (∃ e : String, heapPopE ([] : Heap) = .error e) ∧
    ∀ balances : List (Person × Int),
      resolve_transfersE balances = .ok (resolve_transfers balances) :=
  ⟨⟨"IndexError: index out of range", rfl⟩, resolve_transfersE_ok⟩

/-- C9 (confirmed): the state-passing embedding of `resolve_transfers`
returns the balances dict unchanged — the source only reads
`balances.items()` and never writes into the dict — while computing the
same result as `resolve_transfers`. -/
theorem C9_balances_unchanged (balances : List (Person × Int)) :
    (resolve_transfers_state balances).2 = balances ∧
    (resolve_transfers_state balances).1 = resolve_transfers balances :=
  ⟨rfl, rfl⟩

/-- C10 (confirmed): when two entries of a settlement heap carry the same
amount (hence the same negated-amount priority), the entry whose person is
lexicographically smaller under Python string order is the one popped
first: the pop can never return the larger-person entry while the
smaller-person entry is still in the heap.  Consequently (second conjunct)
`resolve_transfers` is a deterministic function of its input. -/
theorem C10_tie_break :
    (∀ h : Heap, (∀ e ∈ h, e.1 = -e.2.1) →
      ∀ (a : Int) (p₁ p₂ : Person), (-a, (a, p₁)) ∈ h →
        personLtb p₁ p₂ = true →
        ∀ t : Heap, heapPop h ≠ some ((a, p₂), t)) ∧
    ∀ b₁ b₂ : List (Person × Int), b₁ = b₂ →
      resolve_transfers b₁ = resolve_transfers b₂ := by
  constructor
  · intro h hwf a p₁ p₂ hmem hlt t hcon
    obtain ⟨e, hfm, hin, hitem, _⟩ := heapPop_spec hcon
    have hwfe := hwf e hin
    have h1 : e.2 = (a, p₂) := hitem
    have h2 : e.1 = -a := by rw [hwfe, h1]
    have hle := findMin_le hfm (-a, (a, p₁)) hmem
    rw [entryLeb_iff] at hle
    rcases hle with hlt1 | ⟨_, hlt2 | ⟨_, hpp⟩⟩
    · rw [h2] at hlt1
      exact lt_irrefl _ hlt1
    · have ha : e.2.1 = a := by rw [h1]
      rw [ha] at hlt2
      exact lt_irrefl _ hlt2
    · have hp2 : e.2.2 = p₂ := by rw [h1]
      rw [hp2] at hpp
      rw [hlt] at hpp
      exact Bool.noConfusion hpp
  · intro b₁ b₂ hb
    rw [hb]

theorem C10_tie_break_witness :
    heapPop [(-5, (5, "B")), (-5, (5, "A"))] ≠
      some ((5, "B"), [(-5, (5, "A"))]) :=
  C10_tie_break.1 [(-5, (5, "B")), (-5, (5, "A"))] (by decide) 5 "A" "B"
    (by decide) (by decide) [(-5, (5, "A"))]
